import Mathlib

/-!
Verification of the MiniLang program-analysis pipeline
(parser-side loop unrolling, standalone loop unroller, SSA conversion,
SMT constraint generation, assertion checking, program equivalence).

The definitions below are a shallow embedding of the Python sources:
  - `src/parser.py`        (MiniLangTransformer.unroll_for_loop / unroll_while_loop)
  - `src/loop_unroller.py` (unroll_loops and its inner unroll_stmt / is_loop)
  - `src/ssa_converter.py` (SSAConverter)
  - `src/smt_generator.py` (SMTGenerator, check_program_equivalence)

Python dict-backed state is modelled with explicit functions / association
lists; the external Z3 solver is modelled as a formula syntax (`Z3Val`),
an evaluation semantics (`zEval`), and satisfiability (`SatList`); solver
calls are abstracted as an oracle `sat? : List Z3Val → Bool` assumed sound
for satisfiability where a theorem needs it.
-/

/-- Expressions of the MiniLang AST, mirroring the Python tuples:
integer literals, `('var', name)`, `(op, l, r)` for arithmetic heads
(`add`/`sub`/`mul`/`div`, with arbitrary heads representable so that the
encoder fall-through can be stated), and `('cond', op, l, r)` comparisons. -/
inductive Expr where
  | num (n : Int)
  | var (name : String)
  | binop (op : String) (l r : Expr)
  | cond (op : String) (l r : Expr)
deriving DecidableEq, Repr

/-- Statements of the MiniLang AST: `('assign', name, e)`,
`('if', cond, thenBlock, elseBlock-or-None)`, `('assert', c)`,
`('for', init, cond, update, body)`, `('while', cond, body)`. -/
inductive Stmt where
  | assign (name : String) (e : Expr)
  | ifS (c : Expr) (thenB : List Stmt) (elseB : Option (List Stmt))
  | assertS (c : Expr)
  | forS (init : Stmt) (c : Expr) (update : Stmt) (body : List Stmt)
  | whileS (c : Expr) (body : List Stmt)
deriving Repr

/-- SSA statements produced by `SSAConverter`:
`(target, '=', rhs)` assignments, `('if', cond)` branch markers,
`('assert', cond)` assertions. -/
inductive SSAStmt where
  | assign (target : String) (rhs : Expr)
  | branch (c : Expr)
  | assertS (c : Expr)
deriving DecidableEq, Repr

/-! ## Parser-side loop unrolling (src/parser.py, MiniLangTransformer) -/

/-- `MiniLangTransformer.unroll_for_loop`: starts from `[init]` and appends
`('if', cond, block + [update], None)` once per iteration of
`range(max_iterations)`. -/
def unroll_for_loop (init : Stmt) (c : Expr) (update : Stmt)
    (block : List Stmt) (k : Nat) : List Stmt :=
  (List.range k).foldl
    (fun acc _ => acc ++ [Stmt.ifS c (block ++ [update]) none]) [init]

/-- `MiniLangTransformer.unroll_while_loop`: appends `('if', cond, block, None)`
once per iteration of `range(max_iterations)`, starting from `[]`. -/
def unroll_while_loop (c : Expr) (block : List Stmt) (k : Nat) : List Stmt :=
  (List.range k).foldl (fun acc _ => acc ++ [Stmt.ifS c block none]) []

/-! ## Standalone unroller (src/loop_unroller.py) -/

/-- `is_loop` from `src/loop_unroller.py`: `stmt[0] in ('for', 'while')`. -/
def is_loop : Stmt → Bool
  | .forS _ _ _ _ => true
  | .whileS _ _ => true
  | _ => false

mutual

/-- `unroll_stmt` from `src/loop_unroller.py`.  A `for` yields `[init]` then,
per iteration, the guarded copy `('if', cond, body, None)` followed by an
unguarded copy of `body` and the `update` (`stmts.append(if)`;
`stmts.extend(body)`; `stmts.append(update)`).  A `while` is the same without
`init`/`update`.  An `if` recursively unrolls loop statements of its blocks
(`else_unrolled if else_block else None` maps an absent or empty else to
`None`).  Anything else is returned as a singleton. -/
def unroll_stmt (k : Nat) : Stmt → List Stmt
  | .forS init c update body =>
      (List.range k).foldl
        (fun acc _ => acc ++ (Stmt.ifS c body none :: (body ++ [update])))
        [init]
  | .whileS c body =>
      (List.range k).foldl
        (fun acc _ => acc ++ (Stmt.ifS c body none :: body)) []
  | .ifS c tb eb =>
      let tU := unroll_block k tb
      let eU : Option (List Stmt) :=
        match eb with
        | none => none
        | some l => if l.isEmpty then none else some (unroll_block k l)
      [Stmt.ifS c tU eU]
  | s => [s]

/-- The per-block traversal inside `unroll_stmt`'s `if` case:
`extend(unroll_stmt(s) if is_loop(s) else [s])` over the block. -/
def unroll_block (k : Nat) : List Stmt → List Stmt
  | [] => []
  | s :: rest =>
      (if is_loop s then unroll_stmt k s else [s]) ++ unroll_block k rest

end

/-- `unroll_loops` from `src/loop_unroller.py`: the top-level dispatch calls
`unroll_stmt` only on statements that are themselves loops and appends every
other statement unchanged (without descending into it). -/
def unroll_loops (ast : List Stmt) (k : Nat) : List Stmt :=
  ast.foldl
    (fun acc s => if is_loop s then acc ++ unroll_stmt k s else acc ++ [s]) []

mutual

/-- A statement contains no `for`/`while` anywhere, including inside
conditional blocks (specification-side predicate used to state claims about
loop-free programs). -/
def loop_free : Stmt → Bool
  | .forS _ _ _ _ => false
  | .whileS _ _ => false
  | .ifS _ tb eb =>
      loop_free_block tb &&
        (match eb with
         | none => true
         | some l => loop_free_block l)
  | _ => true

/-- All statements of a block are deeply loop-free. -/
def loop_free_block : List Stmt → Bool
  | [] => true
  | s :: rest => loop_free s && loop_free_block rest

end

/-! ## SSA conversion (src/ssa_converter.py) -/

/-- The mutable state of `SSAConverter`: `counter` (versions issued per base
name, default 0), `env` (current versioned name per base, absent when never
assigned), and the accumulated SSA list. -/
structure ConvState where
  counter : String → Nat
  env : String → Option String
  ssa : List SSAStmt

/-- `SSAConverter.new_version`: issue version `counter[var] + 1`, producing
the name `var ++ "_" ++ n` and updating both tables. -/
def new_version (st : ConvState) (v : String) : String × ConvState :=
  let n := st.counter v + 1
  let vname := v ++ "_" ++ Nat.repr n
  (vname,
    { st with
      counter := fun w => if w = v then n else st.counter w
      env := fun w => if w = v then some vname else st.env w })

/-- `SSAConverter.current`: `env.get(var, var)` — the bare name itself when
the variable was never assigned. -/
def currentVar (st : ConvState) (v : String) : String :=
  (st.env v).getD v

/-- `SSAConverter.transform_expr`: rewrite variable references to their
current versions; recurse through comparisons and the four known arithmetic
heads; return anything else unchanged. -/
def transform_expr (st : ConvState) : Expr → Expr
  | .var v => .var (currentVar st v)
  | .cond op l r => .cond op (transform_expr st l) (transform_expr st r)
  | .binop op l r =>
      if op = "add" ∨ op = "sub" ∨ op = "mul" ∨ op = "div" then
        .binop op (transform_expr st l) (transform_expr st r)
      else .binop op l r
  | .num n => .num n

/-- `SSAConverter.handle_assignment`: transform the right-hand side with the
current versions first, then issue a new version of the target and append the
SSA assignment. -/
def handle_assignment (st : ConvState) (v : String) (e : Expr) : ConvState :=
  let newExpr := transform_expr st e
  let p := new_version st v
  { p.2 with ssa := p.2.ssa ++ [SSAStmt.assign p.1 newExpr] }

/-- The branch-body loops of `SSAConverter.handle_if`: only top-level
`assign` statements of the block are converted; nested ifs, asserts and
loops inside a branch body are ignored. -/
def handle_branch_block (st : ConvState) (blk : List Stmt) : ConvState :=
  blk.foldl
    (fun st s =>
      match s with
      | .assign v e => handle_assignment st v e
      | _ => st) st

/-- One dispatch step of `SSAConverter.convert`: assignments, ifs
(`handle_if`: branch marker, then the then-block, then the else-block on the
same shared state) and asserts; any other statement (a loop that reached the
converter) falls through the if/elif chain and is silently dropped. -/
def convert_stmt (st : ConvState) : Stmt → ConvState
  | .assign v e => handle_assignment st v e
  | .ifS c tb eb =>
      let st1 := { st with ssa := st.ssa ++ [SSAStmt.branch (transform_expr st c)] }
      let st2 := handle_branch_block st1 tb
      handle_branch_block st2 (eb.getD [])
  | .assertS c => { st with ssa := st.ssa ++ [SSAStmt.assertS (transform_expr st c)] }
  | _ => st

/-- The converter state starts with empty tables and an empty SSA list. -/
def init_state : ConvState :=
  { counter := fun _ => 0, env := fun _ => none, ssa := [] }

/-- The statement loop of `SSAConverter.convert`. -/
def convert_list (st : ConvState) (ast : List Stmt) : ConvState :=
  ast.foldl convert_stmt st

/-- `SSAConverter().convert(ast)`: run from a fresh converter and return the
SSA list. -/
def convert (ast : List Stmt) : List SSAStmt :=
  (convert_list init_state ast).ssa

/-! ## SMT generation (src/smt_generator.py) -/

/-- Z3 values as built by `SMTGenerator`: integer literals (Python ints are
passed through and coerced by Z3), the Python `True` used as the initial
path condition, integer variables created by `get_var` (already carrying the
generator's namespace prefix), arithmetic and comparison applications,
`Implies`, `==`/`!=`, and the `And`(3-ary)/`Or`(2-ary)/`Not` shapes built by
`check_program_equivalence`.  `raw e` records the fall-through of
`expr_to_z3`, which returns an unrecognized expression unchanged. -/
inductive Z3Val where
  | intV (n : Int)
  | boolV (b : Bool)
  | intVar (name : String)
  | arith (op : String) (l r : Z3Val)
  | cmp (op : String) (l r : Z3Val)
  | implies (p q : Z3Val)
  | eqV (l r : Z3Val)
  | neV (l r : Z3Val)
  | and3 (a b c : Z3Val)
  | or2 (a b : Z3Val)
  | not1 (a : Z3Val)
  | raw (e : Expr)
deriving DecidableEq, Repr

/-- `SMTGenerator.expr_to_z3` with the generator's `var_prefix` (`get_var`
creates `Int(prefix + name)`).  Comparisons with one of the six known
operators and arithmetic with one of the four known heads recurse; any other
shape falls through to the final `return expr`, i.e. is returned unchanged. -/
def expr_to_z3 (pfx : String) : Expr → Z3Val
  | .num n => .intV n
  | .var v => .intVar (pfx ++ v)
  | .cond op l r =>
      if op = "<" ∨ op = ">" ∨ op = "<=" ∨ op = ">=" ∨ op = "==" ∨ op = "!=" then
        .cmp op (expr_to_z3 pfx l) (expr_to_z3 pfx r)
      else .raw (.cond op l r)
  | .binop op l r =>
      if op = "add" ∨ op = "sub" ∨ op = "mul" ∨ op = "div" then
        .arith op (expr_to_z3 pfx l) (expr_to_z3 pfx r)
      else .raw (.binop op l r)

/-- Values of the solver's sorts: integers and booleans. -/
inductive PyV where
  | i (n : Int)
  | b (bl : Bool)
deriving DecidableEq, Repr

/-- Comparison semantics for the six operators handled by `expr_to_z3`. -/
def cmpEval (op : String) (x y : Int) : Option Bool :=
  if op = "<" then some (decide (x < y))
  else if op = ">" then some (decide (x > y))
  else if op = "<=" then some (decide (x ≤ y))
  else if op = ">=" then some (decide (x ≥ y))
  else if op = "==" then some (decide (x = y))
  else if op = "!=" then some (decide (x ≠ y))
  else none

/-- Arithmetic semantics for the four heads handled by `expr_to_z3`;
division is the solver's Euclidean integer division. -/
def arithEval (op : String) (x y : Int) : Option Int :=
  if op = "add" then some (x + y)
  else if op = "sub" then some (x - y)
  else if op = "mul" then some (x * y)
  else if op = "div" then some (Int.ediv x y)
  else none

/-- Evaluation of a Z3 value under an integer assignment of the solver's
symbols.  `none` models a value the solver cannot interpret (in particular
the `raw` fall-through of `expr_to_z3`). -/
def zEval (σ : String → Int) : Z3Val → Option PyV
  | .intV n => some (.i n)
  | .boolV b => some (.b b)
  | .intVar s => some (.i (σ s))
  | .arith op l r =>
      match zEval σ l, zEval σ r with
      | some (.i x), some (.i y) => (arithEval op x y).map PyV.i
      | _, _ => none
  | .cmp op l r =>
      match zEval σ l, zEval σ r with
      | some (.i x), some (.i y) => (cmpEval op x y).map PyV.b
      | _, _ => none
  | .implies p q =>
      match zEval σ p, zEval σ q with
      | some (.b x), some (.b y) => some (.b (!x || y))
      | _, _ => none
  | .eqV l r =>
      match zEval σ l, zEval σ r with
      | some (.i x), some (.i y) => some (.b (decide (x = y)))
      | some (.b x), some (.b y) => some (.b (x == y))
      | _, _ => none
  | .neV l r =>
      match zEval σ l, zEval σ r with
      | some (.i x), some (.i y) => some (.b (decide (x ≠ y)))
      | some (.b x), some (.b y) => some (.b (x != y))
      | _, _ => none
  | .and3 a b c =>
      match zEval σ a, zEval σ b, zEval σ c with
      | some (.b x), some (.b y), some (.b z) => some (.b (x && y && z))
      | _, _, _ => none
  | .or2 a b =>
      match zEval σ a, zEval σ b with
      | some (.b x), some (.b y) => some (.b (x || y))
      | _, _ => none
  | .not1 a =>
      match zEval σ a with
      | some (.b x) => some (.b (!x))
      | _ => none
  | .raw _ => none

/-- A formula holds under an assignment when it evaluates to `True`. -/
def holdsZ (σ : String → Int) (f : Z3Val) : Prop :=
  zEval σ f = some (.b true)

/-- Satisfiability of an accumulated constraint set — the capability the
external solver provides (`Solver.check() == sat`). -/
def SatList (cs : List Z3Val) : Prop :=
  ∃ σ : String → Int, ∀ f ∈ cs, holdsZ σ f

/-- A solver oracle is sound when it only answers `sat` on genuinely
satisfiable constraint sets. -/
def SoundOracle (sat? : List Z3Val → Bool) : Prop :=
  ∀ cs, sat? cs = true → SatList cs

/-- The mutable state of `SMTGenerator.to_smt`: the running `path_condition`
(initialized to Python `True` in `__init__`) and the ordered constraint
collection (`self.constraints`; `self.solver` receives the same formulas in
the same order). -/
structure SmtState where
  pathCondition : Z3Val
  constraints : List Z3Val
deriving DecidableEq, Repr

/-- One statement of the `to_smt` loop: a branch marker or an assert emits
`Implies(path_condition, expr_to_z3(cond))`; an assignment emits
`get_var(var) == expr_to_z3(rhs)`.  (The phi-marker special case applies
only to raw-string right-hand sides, which the SSA converter never
produces.)  Note: `path_condition` is never assigned anywhere. -/
def to_smt_step (pfx : String) (st : SmtState) : SSAStmt → SmtState
  | .branch c =>
      { st with constraints := st.constraints ++ [Z3Val.implies st.pathCondition (expr_to_z3 pfx c)] }
  | .assertS c =>
      { st with constraints := st.constraints ++ [Z3Val.implies st.pathCondition (expr_to_z3 pfx c)] }
  | .assign v rhs =>
      { st with constraints := st.constraints ++ [Z3Val.eqV (Z3Val.intVar (pfx ++ v)) (expr_to_z3 pfx rhs)] }

/-- `SMTGenerator(ssa, var_prefix).to_smt()` starting from the freshly
constructed generator. -/
def to_smt (pfx : String) (ssa : List SSAStmt) : SmtState :=
  ssa.foldl (to_smt_step pfx) { pathCondition := .boolV true, constraints := [] }

/-- Outcome of `SMTGenerator.check_assertions`: the "All assertions hold"
report on `sat`, "Assertion violation found" on anything else. -/
inductive CheckResult where
  | allHold
  | violation
deriving DecidableEq, Repr

/-- `SMTGenerator.check_assertions`, with the solver call abstracted by the
oracle: tests satisfiability of the whole accumulated constraint set. -/
def check_assertions (sat? : List Z3Val → Bool) (pfx : String)
    (ssa : List SSAStmt) : CheckResult :=
  if sat? (to_smt pfx ssa).constraints then .allHold else .violation

/-- The characters of the first underscore-separated segment of a name. -/
def takeUntilUnderscore : List Char → List Char
  | [] => []
  | c :: rest => if c = '_' then [] else c :: takeUntilUnderscore rest

/-- `base_var = var.split('_')[0]` as used by `get_final_versions`: the
segment before the first underscore (the whole name when there is none). -/
def baseOf (v : String) : String :=
  String.mk (takeUntilUnderscore v.data)

/-- Insert-or-update on an association list, preserving first-insertion
order — the behaviour of a Python dict. -/
def upsert (m : List (String × String)) (k v : String) : List (String × String) :=
  if m.any (fun p => p.1 = k) then
    m.map (fun p => if p.1 = k then (k, v) else p)
  else m ++ [(k, v)]

/-- `SMTGenerator.get_final_versions`: for every SSA assignment, record the
target under its base name, keeping the last one per base. -/
def get_final_versions (ssa : List SSAStmt) : List (String × String) :=
  ssa.foldl
    (fun m s =>
      match s with
      | .assign v _ => upsert m (baseOf v) v
      | _ => m) []

/-- The inner `get_assertions` of `check_program_equivalence`: pair every
assert with the condition of the most recent branch marker (`None` before
any branch). -/
def get_assertions : List SSAStmt → Option Expr → List (Expr × Option Expr)
  | [], _ => []
  | .branch c :: rest, _ => get_assertions rest (some c)
  | .assertS a :: rest, cur => (a, cur) :: get_assertions rest cur
  | .assign _ _ :: rest, cur => get_assertions rest cur

/-- Association-list lookup (`vars1[base_var]`). -/
def lookupD (m : List (String × String)) (k : String) : String :=
  ((m.find? (fun p => p.1 = k)).map (fun p => p.2)).getD ""

/-- Verdicts of `check_program_equivalence` (the diagnostic strings,
stripped of their model listings). -/
inductive EquivResult where
  | noCommon
  | valueDiv (base : String)
  | assertDiv
  | equivalent
deriving DecidableEq, Repr

/-- The satisfiability query of the value-divergence loop for one common
base variable: all constraints of both encodings plus
`smt1.vars[var1] != smt2.vars[var2]`. -/
def value_query (baseCs : List Z3Val) (vars1 vars2 : List (String × String))
    (b : String) : List Z3Val :=
  baseCs ++ [Z3Val.neV (Z3Val.intVar ("p1_" ++ lookupD vars1 b))
                       (Z3Val.intVar ("p2_" ++ lookupD vars2 b))]

/-- The satisfiability query of the assertion-divergence loop for one
positional pair of assertions:
`Or(And(c1, a1, Not(a2)), And(c2, Not(a1), a2))` on top of all constraints,
with an absent guard encoded as `True`. -/
def assert_query (baseCs : List Z3Val)
    (pr : (Expr × Option Expr) × (Expr × Option Expr)) : List Z3Val :=
  let zc1 := (pr.1.2.map (expr_to_z3 "p1_")).getD (.boolV true)
  let zc2 := (pr.2.2.map (expr_to_z3 "p2_")).getD (.boolV true)
  let za1 := expr_to_z3 "p1_" pr.1.1
  let za2 := expr_to_z3 "p2_" pr.2.1
  baseCs ++ [Z3Val.or2 (.and3 zc1 za1 (.not1 za2)) (.and3 zc2 (.not1 za1) za2)]

/-- `check_program_equivalence`, with the solver abstracted by `sat?`: the
two SSA lists are encoded under the prefixes `"p1_"`/`"p2_"` into one
context; with no common base names the no-common-variables verdict is
returned before any solver query; otherwise the first satisfiable
value-divergence query, then the first satisfiable assertion-divergence
query, is reported; if neither exists the programs are declared equivalent.
(The common names are iterated here in first-assignment order of program 1;
the source iterates a Python set, whose order only affects which divergent
variable is reported first.) -/
def check_program_equivalence (sat? : List Z3Val → Bool)
    (ssa1 ssa2 : List SSAStmt) : EquivResult :=
  let cs1 := (to_smt "p1_" ssa1).constraints
  let cs2 := (to_smt "p2_" ssa2).constraints
  let vars1 := get_final_versions ssa1
  let vars2 := get_final_versions ssa2
  let baseCs := cs1 ++ cs2
  let common := (vars1.map Prod.fst).filter
    (fun k => (vars2.map Prod.fst).contains k)
  if common.isEmpty then .noCommon
  else
    match common.find? (fun b => sat? (value_query baseCs vars1 vars2 b)) with
    | some b => .valueDiv b
    | none =>
        let pairs := (get_assertions ssa1 none).zip (get_assertions ssa2 none)
        if pairs.any (fun pr => sat? (assert_query baseCs pr)) then .assertDiv
        else .equivalent

/-! ## Helper lemmas -/

theorem flatten_replicate_comm {α : Type} (xs : List α) :
    ∀ k, (List.replicate k xs).flatten ++ xs = xs ++ (List.replicate k xs).flatten := by
  intro k
  induction k with
  | zero => simp
  | succ k ih =>
      rw [List.replicate_succ, List.flatten_cons, List.append_assoc, ih]

theorem foldl_append_iter {α : Type} (xs : List α) :
    ∀ (k : Nat) (init : List α),
      (List.range k).foldl (fun acc _ => acc ++ xs) init
        = init ++ (List.replicate k xs).flatten := by
  intro k
  induction k with
  | zero => simp
  | succ k ih =>
      intro init
      rw [List.range_succ, List.foldl_append, ih]
      simp only [List.foldl_cons, List.foldl_nil, List.replicate_succ, List.flatten_cons]
      rw [List.append_assoc, flatten_replicate_comm]

theorem flatten_replicate_singleton {α : Type} (a : α) :
    ∀ k, (List.replicate k [a]).flatten = List.replicate k a := by
  intro k
  induction k with
  | zero => rfl
  | succ k ih => rw [List.replicate_succ, List.flatten_cons, List.replicate_succ]; simp [ih]

theorem unroll_for_loop_eq (init : Stmt) (c : Expr) (u : Stmt) (b : List Stmt) (k : Nat) :
    unroll_for_loop init c u b k = init :: List.replicate k (Stmt.ifS c (b ++ [u]) none) := by
  unfold unroll_for_loop
  rw [foldl_append_iter, flatten_replicate_singleton]
  rfl

theorem unroll_stmt_for_eq (init : Stmt) (c : Expr) (u : Stmt) (b : List Stmt) (k : Nat) :
    unroll_stmt k (.forS init c u b)
      = init :: (List.replicate k (Stmt.ifS c b none :: (b ++ [u]))).flatten := by
  rw [unroll_stmt, foldl_append_iter]
  rfl

theorem unroll_loops_acc (k : Nat) :
    ∀ (ast : List Stmt) (acc : List Stmt),
      ast.foldl (fun acc s => if is_loop s then acc ++ unroll_stmt k s else acc ++ [s]) acc
        = acc ++ ast.foldl (fun acc s => if is_loop s then acc ++ unroll_stmt k s else acc ++ [s]) [] := by
  intro ast
  induction ast with
  | nil => simp
  | cons s rest ih =>
      intro acc
      simp only [List.foldl_cons]
      rw [ih, ih ((if is_loop s then [] ++ unroll_stmt k s else [] ++ [s]))]
      cases h : is_loop s <;> simp [h]

theorem unroll_loops_cons (k : Nat) (s : Stmt) (rest : List Stmt) :
    unroll_loops (s :: rest) k
      = (if is_loop s then unroll_stmt k s else [s]) ++ unroll_loops rest k := by
  unfold unroll_loops
  simp only [List.foldl_cons]
  rw [unroll_loops_acc]
  cases h : is_loop s <;> simp [h]

theorem loop_free_is_loop_false (s : Stmt) (h : loop_free s = true) : is_loop s = false := by
  cases s <;> simp_all [loop_free, is_loop]

/-! ## Concrete example programs used by the claims -/

/-- `i := 0`, the for-loop initializer of the specification example. -/
def forInitEx : Stmt := .assign "i" (.num 0)

/-- `i < 3`, the for-loop guard of the specification example. -/
def forCondEx : Expr := .cond "<" (.var "i") (.num 3)

/-- `i := i + 1`, the for-loop update of the specification example. -/
def forUpdateEx : Stmt := .assign "i" (.binop "add" (.var "i") (.num 1))

/-- `x := x + 1`, the for-loop body of the specification example. -/
def forBodyEx : List Stmt := [.assign "x" (.binop "add" (.var "x") (.num 1))]

/-- The AST the parser produces (after the transformer has replaced the
loop via `unroll_for_loop` with the default bound 3) for
`x := 0; for (i := 0; i < 3; i := i + 1) { x := x + 1; } assert(x >= 3);`. -/
def astEx : List Stmt :=
  Stmt.assign "x" (.num 0)
    :: unroll_for_loop forInitEx forCondEx forUpdateEx forBodyEx 3
    ++ [Stmt.assertS (.cond ">=" (.var "x") (.num 3))]

/-- C1 (amended).  The pipeline's for-loop unrolling
(`MiniLangTransformer.unroll_for_loop`) produces the init statement exactly
once followed by exactly `k` copies of `If(cond, body ++ [update], None)`
and nothing else, and with `k = 3` the example program's SSA contains
`x_1 := 0`, `x_2 := x_1 + 1`, `x_3 := x_2 + 1`, `x_4 := x_3 + 1` in that
order; the standalone `loop_unroller.unroll_stmt`, also cited by the claim,
instead guards only the body and follows each guarded copy with an extra
unguarded copy of the body and the update. -/
theorem c1_unrolling_shape_and_ssa :
    (∀ (init : Stmt) (c : Expr) (u : Stmt) (b : List Stmt) (k : Nat),
        unroll_for_loop init c u b k = init :: List.replicate k (Stmt.ifS c (b ++ [u]) none))
    ∧ List.Sublist
        [SSAStmt.assign "x_1" (.num 0),
         SSAStmt.assign "x_2" (.binop "add" (.var "x_1") (.num 1)),
         SSAStmt.assign "x_3" (.binop "add" (.var "x_2") (.num 1)),
         SSAStmt.assign "x_4" (.binop "add" (.var "x_3") (.num 1))]
        (convert astEx)
    ∧ (∀ (init : Stmt) (c : Expr) (u : Stmt) (b : List Stmt) (k : Nat),
        unroll_stmt k (.forS init c u b)
          = init :: (List.replicate k (Stmt.ifS c b none :: (b ++ [u]))).flatten) :=
  ⟨unroll_for_loop_eq, by decide, unroll_stmt_for_eq⟩

/-- C1 counterexample.  On the specification example's own loop,
`loop_unroller.unroll_stmt` with the default bound 3 does not produce
"init once followed by exactly 3 copies of `If(cond, body ++ [update],
None)` and nothing else": it emits 10 statements instead of 4. -/
theorem c1_counterexample :
    unroll_stmt 3 (.forS forInitEx forCondEx forUpdateEx forBodyEx)
      ≠ forInitEx :: List.replicate 3 (Stmt.ifS forCondEx (forBodyEx ++ [forUpdateEx]) none) := by
  intro h
  have hl : (unroll_stmt 3 (.forS forInitEx forCondEx forUpdateEx forBodyEx)).length = 10 := by
    rw [unroll_stmt]
    rfl
  rw [h] at hl
  simp at hl

/-- A conditional whose then-block holds a while-loop: the failing input of
C6 (`if (x < 0) { while (x < 3) { x := x + 1; } }`). -/
def astF : List Stmt :=
  [Stmt.ifS (.cond "<" (.var "x") (.num 0))
      [Stmt.whileS (.cond "<" (.var "x") (.num 3))
          [Stmt.assign "x" (.binop "add" (.var "x") (.num 1))]]
      none]

/-- C6 (code bug).  `unroll_loops` returns a program whose conditional
contains a `while` completely unchanged — its top-level dispatch never
descends into non-loop statements, so the recursive if-handler inside
`unroll_stmt` is unreachable — and the surviving loop then reaches the SSA
converter, which silently drops it (only the branch marker remains). -/
theorem c6_nested_loop_survives :
    unroll_loops astF 3 = astF
      ∧ convert (unroll_loops astF 3) = [SSAStmt.branch (.cond "<" (.var "x") (.num 0))] :=
  ⟨rfl, rfl⟩

/-- C7.  On deeply loop-free programs the standalone unroller is the
identity (every statement is appended unchanged), hence idempotent. -/
theorem c7_unroll_identity_on_loop_free :
    ∀ (ast : List Stmt) (k : Nat), loop_free_block ast = true →
      unroll_loops ast k = ast
        ∧ unroll_loops (unroll_loops ast k) k = unroll_loops ast k := by
  have main : ∀ (k : Nat) (ast : List Stmt), loop_free_block ast = true →
      unroll_loops ast k = ast := by
    intro k ast
    induction ast with
    | nil => intro _; rfl
    | cons s rest ih =>
        intro h
        simp only [loop_free_block, Bool.and_eq_true] at h
        rw [unroll_loops_cons, loop_free_is_loop_false s h.1]
        simp [ih h.2]
  intro ast k h
  refine ⟨main k ast h, ?_⟩
  rw [main k ast h, main k ast h]

/-- A loop-free program with a two-armed conditional, used to instantiate C7. -/
def astW : List Stmt :=
  [Stmt.assign "x" (.num 1),
   Stmt.ifS (.cond ">" (.var "x") (.num 0))
     [Stmt.assign "y" (.num 2)] (some [Stmt.assign "y" (.num 3)]),
   Stmt.assertS (.cond ">" (.var "y") (.num 0))]

/-- C7 witness: the loop-free example program is returned unchanged and
re-unrolling changes nothing. -/
theorem c7_witness :
    loop_free_block astW = true
      ∧ (unroll_loops astW 3 = astW
          ∧ unroll_loops (unroll_loops astW 3) 3 = unroll_loops astW 3) :=
  ⟨by simp [astW, loop_free_block, loop_free],
   c7_unroll_identity_on_loop_free astW 3 (by simp [astW, loop_free_block, loop_free])⟩

/-! ## Path-condition behaviour of the encoder (claims C3, C10) -/

/-- The formula `to_smt` emits for one SSA statement when the running path
condition is the initial Python `True`. -/
def encode1 (pfx : String) : SSAStmt → Z3Val
  | .branch c => .implies (.boolV true) (expr_to_z3 pfx c)
  | .assertS c => .implies (.boolV true) (expr_to_z3 pfx c)
  | .assign v rhs => .eqV (.intVar (pfx ++ v)) (expr_to_z3 pfx rhs)

theorem to_smt_step_pathCondition (pfx : String) (st : SmtState) (s : SSAStmt) :
    (to_smt_step pfx st s).pathCondition = st.pathCondition := by
  cases s <;> rfl

theorem to_smt_foldl_eq (pfx : String) :
    ∀ (ssa : List SSAStmt) (st : SmtState), st.pathCondition = Z3Val.boolV true →
      ssa.foldl (to_smt_step pfx) st
        = { pathCondition := Z3Val.boolV true,
            constraints := st.constraints ++ ssa.map (encode1 pfx) } := by
  intro ssa
  induction ssa with
  | nil =>
      intro st h
      cases st
      simp_all
  | cons s rest ih =>
      intro st h
      rw [List.foldl_cons, ih _ (by rw [to_smt_step_pathCondition, h])]
      have hc : (to_smt_step pfx st s).constraints = st.constraints ++ [encode1 pfx s] := by
        cases s <;> simp [to_smt_step, encode1, h]
      rw [hc]
      simp

theorem to_smt_eq_map (pfx : String) (ssa : List SSAStmt) :
    to_smt pfx ssa
      = { pathCondition := Z3Val.boolV true, constraints := ssa.map (encode1 pfx) } := by
  unfold to_smt
  rw [to_smt_foldl_eq pfx ssa _ rfl]
  simp

/-- The SSA input of the C3 counterexample: a branch marker followed by an
assert. -/
def ssaC3 : List SSAStmt :=
  [SSAStmt.branch (.cond "<" (.var "x_1") (.num 0)),
   SSAStmt.assertS (.cond ">" (.var "y_1") (.num 0))]

/-- C3 counterexample.  After processing `Branch(x_1 < 0)` the running path
condition is still the initial `True` — not the branch condition — and the
constraint emitted for the following assert is guarded by `True`, not by
`x_1 < 0`. -/
theorem c3_counterexample :
    (to_smt "" ssaC3).pathCondition = Z3Val.boolV true
      ∧ Z3Val.boolV true ≠ expr_to_z3 "" (.cond "<" (.var "x_1") (.num 0))
      ∧ (to_smt "" ssaC3).constraints.get? 1
          = some (Z3Val.implies (Z3Val.boolV true) (expr_to_z3 "" (.cond ">" (.var "y_1") (.num 0))))
      ∧ Z3Val.implies (Z3Val.boolV true) (expr_to_z3 "" (.cond ">" (.var "y_1") (.num 0)))
          ≠ Z3Val.implies (expr_to_z3 "" (.cond "<" (.var "x_1") (.num 0)))
              (expr_to_z3 "" (.cond ">" (.var "y_1") (.num 0))) := by
  refine ⟨?_, by decide, ?_, by decide⟩ <;> rfl

/-- C3 (amended).  `Branch(cond)` emits `pathCondition ⇒ translate(cond)`
(as does `Assert`), but the encoder never updates `path_condition`: it stays
the initial `True` through the entire run, so every emitted constraint —
before and after any branch — is guarded by `True`. -/
theorem c3_path_condition_constant :
    ∀ (pfx : String) (ssa : List SSAStmt),
      (to_smt pfx ssa).pathCondition = Z3Val.boolV true
        ∧ (to_smt pfx ssa).constraints = ssa.map (encode1 pfx) := by
  intro pfx ssa
  rw [to_smt_eq_map]
  exact ⟨rfl, rfl⟩

/-! ## SSA if-handling (claim C4) -/

/-- Top-level assignment test used to describe `handle_if`'s branch-body
filtering. -/
def isAssignStmt : Stmt → Bool
  | .assign _ _ => true
  | _ => false

theorem handle_branch_block_eq_convert_list :
    ∀ (blk : List Stmt) (st : ConvState),
      handle_branch_block st blk = convert_list st (blk.filter isAssignStmt) := by
  intro blk
  induction blk with
  | nil => intro st; rfl
  | cons s rest ih =>
      intro st
      cases s <;>
        simp only [handle_branch_block, convert_list, List.foldl_cons, List.filter_cons,
          isAssignStmt] <;>
        exact ih _

/-- C4.  Converting `If(cond, thenBlock, elseBlock)` appends one branch
marker and then processes the then-block's and (last) the else-block's
top-level assignments sequentially on the one shared version table — the
same final state as converting the flattened assignment sequence of both
branches in order.  No phi merge keyed by the branch condition exists
anywhere in the output (the SSA statement type has no merge form), and
statements after the if resolve against the state the last-processed branch
left behind. -/
theorem c4_if_leaves_last_branch_state :
    ∀ (st : ConvState) (c : Expr) (tb : List Stmt) (eb : Option (List Stmt)),
      convert_stmt st (.ifS c tb eb)
        = convert_list
            { st with ssa := st.ssa ++ [SSAStmt.branch (transform_expr st c)] }
            ((tb ++ eb.getD []).filter isAssignStmt) := by
  intro st c tb eb
  show handle_branch_block
      (handle_branch_block
        { st with ssa := st.ssa ++ [SSAStmt.branch (transform_expr st c)] } tb)
      (eb.getD []) = _
  rw [handle_branch_block_eq_convert_list, handle_branch_block_eq_convert_list,
    List.filter_append]
  unfold convert_list
  rw [List.foldl_append]

theorem to_smt_constraints (pfx : String) (ssa : List SSAStmt) :
    (to_smt pfx ssa).constraints = ssa.map (encode1 pfx) := by
  rw [to_smt_eq_map]

/-! ## No-common-variables verdict (claim C8) -/

/-- C8.  When the final-version tables of the two programs share no base
name, the checker returns the no-common-variables verdict for every solver
oracle whatsoever — in particular without performing the value-divergence
loop or the assertion-divergence check, whose outcomes (the oracle) cannot
influence the result. -/
theorem c8_no_common_vars :
    ∀ (sat? : List Z3Val → Bool) (ssa1 ssa2 : List SSAStmt),
      ((get_final_versions ssa1).map Prod.fst).all
          (fun b => !(((get_final_versions ssa2).map Prod.fst).contains b)) = true →
      check_program_equivalence sat? ssa1 ssa2 = .noCommon := by
  intro sat? ssa1 ssa2 h
  unfold check_program_equivalence
  have hc : ((get_final_versions ssa1).map Prod.fst).filter
      (fun k => ((get_final_versions ssa2).map Prod.fst).contains k) = [] := by
    refine List.filter_eq_nil_iff.mpr ?_
    intro a ha
    have := List.all_eq_true.mp h a ha
    simp_all
  simp only [check_program_equivalence]
  rw [hc]
  rfl

/-- First program of the C8 witness: only assigns `x`. -/
def ssaP1 : List SSAStmt := [SSAStmt.assign "x_1" (.num 1)]

/-- Second program of the C8 witness: only assigns `y`. -/
def ssaP2 : List SSAStmt := [SSAStmt.assign "y_1" (.num 2)]

/-- C8 witness: two programs over disjoint variables get the
no-common-variables verdict, even from an oracle that answers every
satisfiability query positively. -/
theorem c8_witness :
    ((get_final_versions ssaP1).map Prod.fst).all
        (fun b => !(((get_final_versions ssaP2).map Prod.fst).contains b)) = true
      ∧ check_program_equivalence (fun _ => true) ssaP1 ssaP2 = .noCommon :=
  ⟨by decide, c8_no_common_vars (fun _ => true) ssaP1 ssaP2 (by decide)⟩

/-! ## Encoder fall-through (claim C9) -/

/-- C9 counterexample.  On an expression shape the encoder does not
recognize, `expr_to_z3` raises nothing: the final `return expr` fall-through
returns the expression unchanged, so encoding completes normally instead of
propagating an `EncodingError`. -/
theorem c9_counterexample :
    expr_to_z3 "" (.binop "mod" (.var "a") (.num 2))
      = Z3Val.raw (.binop "mod" (.var "a") (.num 2)) := rfl

/-- C9 (amended).  For every arithmetic head outside
`add`/`sub`/`mul`/`div` and every comparison operator outside the six known
ones, `expr_to_z3` returns the expression unchanged (the `return expr`
fall-through); the malformed operand is still handed to the solver layer
rather than being skipped, and any failure arises there, outside the
encoder. -/
theorem c9_unrecognized_returned_unchanged :
    ∀ (pfx op : String) (l r : Expr),
      (op ≠ "add" ∧ op ≠ "sub" ∧ op ≠ "mul" ∧ op ≠ "div" →
        expr_to_z3 pfx (.binop op l r) = .raw (.binop op l r))
      ∧ (op ≠ "<" ∧ op ≠ ">" ∧ op ≠ "<=" ∧ op ≠ ">=" ∧ op ≠ "==" ∧ op ≠ "!=" →
        expr_to_z3 pfx (.cond op l r) = .raw (.cond op l r)) := by
  intro pfx op l r
  constructor
  · rintro ⟨h1, h2, h3, h4⟩
    simp [expr_to_z3, h1, h2, h3, h4]
  · rintro ⟨h1, h2, h3, h4, h5, h6⟩
    simp [expr_to_z3, h1, h2, h3, h4, h5, h6]

/-- C9 witness: concrete unrecognized shapes (`mod` arithmetic, `in`
comparison) flow through `expr_to_z3` unchanged. -/
theorem c9_witness :
    expr_to_z3 "" (.binop "mod" (.var "b") (.num 3))
        = Z3Val.raw (.binop "mod" (.var "b") (.num 3))
      ∧ expr_to_z3 "" (.cond "in" (.var "b") (.num 3))
        = Z3Val.raw (.cond "in" (.var "b") (.num 3)) :=
  ⟨(c9_unrecognized_returned_unchanged "" "mod" (.var "b") (.num 3)).1
      (by refine ⟨?_, ?_, ?_, ?_⟩ <;> decide),
   (c9_unrecognized_returned_unchanged "" "in" (.var "b") (.num 3)).2
      (by refine ⟨?_, ?_, ?_, ?_, ?_, ?_⟩ <;> decide)⟩

/-! ## Branch markers are hard constraints (claim C10) -/

/-- An SSA list with no assert statement at all. -/
def noAssertSSA (ssa : List SSAStmt) : Bool :=
  ssa.all (fun s =>
    match s with
    | .assertS _ => false
    | _ => true)

/-- C10.  Branch markers are encoded as hard constraints: if the condition
of some branch is unsatisfiable together with the constraints that precede
it, the whole accumulated set is unsatisfiable, and `check_assertions` —
which tests satisfiability of that whole set — reports the assertion
violation, even when the SSA list contains no assert statements at all. -/
theorem c10_branch_hard_constraint :
    ∀ (sat? : List Z3Val → Bool) (pre : List SSAStmt) (c : Expr) (rest : List SSAStmt),
      SoundOracle sat? →
      noAssertSSA (pre ++ SSAStmt.branch c :: rest) = true →
      ¬ SatList (to_smt "" (pre ++ [SSAStmt.branch c])).constraints →
      check_assertions sat? "" (pre ++ SSAStmt.branch c :: rest) = .violation := by
  intro sat? pre c rest hsound _ hunsat
  rw [to_smt_constraints] at hunsat
  have hfull : ¬ SatList (to_smt "" (pre ++ SSAStmt.branch c :: rest)).constraints := by
    rw [to_smt_constraints]
    rintro ⟨σ, hσ⟩
    refine hunsat ⟨σ, ?_⟩
    intro f hf
    apply hσ
    rw [List.map_append] at hf ⊢
    rcases List.mem_append.mp hf with h | h
    · exact List.mem_append.mpr (Or.inl h)
    · refine List.mem_append.mpr (Or.inr ?_)
      simp only [List.map_cons, List.mem_cons]
      simp only [List.map_cons, List.map_nil, List.mem_singleton] at h
      exact Or.inl h
  cases hq : sat? (to_smt "" (pre ++ SSAStmt.branch c :: rest)).constraints with
  | true => exact absurd (hsound _ hq) hfull
  | false => simp [check_assertions, hq]

/-- The preceding assignment of the C10 witness: `x_1 := 0`. -/
def preW : List SSAStmt := [SSAStmt.assign "x_1" (.num 0)]

/-- The branch condition of the C10 witness: `x_1 > 0`, impossible after
`x_1 := 0`. -/
def condW : Expr := .cond ">" (.var "x_1") (.num 0)

/-- C10 witness: the assert-free SSA list `x_1 := 0; Branch(x_1 > 0)` is
reported as an assertion violation. -/
theorem c10_witness :
    SoundOracle (fun _ => false)
      ∧ noAssertSSA (preW ++ SSAStmt.branch condW :: []) = true
      ∧ ¬ SatList (to_smt "" (preW ++ [SSAStmt.branch condW])).constraints
      ∧ check_assertions (fun _ => false) "" (preW ++ SSAStmt.branch condW :: []) = .violation := by
  have hsound : SoundOracle (fun _ => false) := by
    intro cs h
    simp at h
  have hunsat : ¬ SatList (to_smt "" (preW ++ [SSAStmt.branch condW])).constraints := by
    rw [to_smt_constraints]
    rintro ⟨σ, hσ⟩
    have h1 := hσ (Z3Val.eqV (.intVar "x_1") (.intV 0)) (by decide)
    have h2 := hσ (Z3Val.implies (.boolV true)
      (.cmp ">" (.intVar "x_1") (.intV 0))) (by decide)
    simp [holdsZ, zEval] at h1
    simp [holdsZ, zEval, cmpEval] at h2
    omega
  exact ⟨hsound, by decide, hunsat,
    c10_branch_hard_constraint (fun _ => false) preW condW [] hsound (by decide) hunsat⟩

/-! ## Version bookkeeping of the SSA converter (claim C5) -/

/-- The variable names occurring in an expression, in order. -/
def exprVarsE : Expr → List String
  | .num _ => []
  | .var v => [v]
  | .binop _ l r => exprVarsE l ++ exprVarsE r
  | .cond _ l r => exprVarsE l ++ exprVarsE r

mutual

/-- All variable names occurring in a statement's expressions
(specification-side, used to bound where bare names can come from). -/
def stmtVars : Stmt → List String
  | .assign _ e => exprVarsE e
  | .ifS c tb eb =>
      exprVarsE c ++ blockVars tb ++
        (match eb with
         | none => []
         | some l => blockVars l)
  | .assertS c => exprVarsE c
  | .forS init c u body => stmtVars init ++ exprVarsE c ++ stmtVars u ++ blockVars body
  | .whileS c body => exprVarsE c ++ blockVars body

/-- All variable names occurring in a block. -/
def blockVars : List Stmt → List String
  | [] => []
  | s :: rest => stmtVars s ++ blockVars rest

end

/-- The versioned name a ghost log entry stands for: `base ++ "_" ++ n`. -/
def nameOfIssue (p : String × Nat) : String :=
  p.1 ++ "_" ++ Nat.repr p.2

/-- The versions issued for one base name, in issuance order. -/
def versionsFor (v : String) (lg : List (String × Nat)) : List Nat :=
  lg.filterMap (fun p => if p.1 = v then some p.2 else none)

/-- The assignment targets of an SSA list, in order. -/
def targetsOf (ssa : List SSAStmt) : List String :=
  ssa.filterMap (fun s =>
    match s with
    | .assign t _ => some t
    | _ => none)

/-- The variable occurrences inside one SSA statement's expression. -/
def ssaStmtOccurrences : SSAStmt → List String
  | .assign _ rhs => exprVarsE rhs
  | .branch c => exprVarsE c
  | .assertS c => exprVarsE c

/-- All variable occurrences inside the expressions of an SSA list. -/
def ssaOccurrences (ssa : List SSAStmt) : List String :=
  (ssa.map ssaStmtOccurrences).flatten

/-- `handle_assignment` extended with a ghost log of `(base, version)`
issuance events; the converter state component is exactly the source
function's. -/
def handle_assignmentG (p : ConvState × List (String × Nat)) (v : String) (e : Expr) :
    ConvState × List (String × Nat) :=
  (handle_assignment p.1 v e, p.2 ++ [(v, p.1.counter v + 1)])

/-- Ghost-logged branch-body loop of `handle_if`. -/
def handle_branch_blockG (p : ConvState × List (String × Nat)) (blk : List Stmt) :
    ConvState × List (String × Nat) :=
  blk.foldl
    (fun p s =>
      match s with
      | .assign v e => handle_assignmentG p v e
      | _ => p) p

/-- Ghost-logged `convert_stmt`. -/
def convert_stmtG (p : ConvState × List (String × Nat)) :
    Stmt → ConvState × List (String × Nat)
  | .assign v e => handle_assignmentG p v e
  | .ifS c tb eb =>
      let p1 := ({ p.1 with ssa := p.1.ssa ++ [SSAStmt.branch (transform_expr p.1 c)] }, p.2)
      handle_branch_blockG (handle_branch_blockG p1 tb) (eb.getD [])
  | .assertS c => ({ p.1 with ssa := p.1.ssa ++ [SSAStmt.assertS (transform_expr p.1 c)] }, p.2)
  | _ => p

/-- Ghost-logged `convert_list`. -/
def convert_listG (p : ConvState × List (String × Nat)) (ast : List Stmt) :
    ConvState × List (String × Nat) :=
  ast.foldl convert_stmtG p

/-- The ghost-logged run of `SSAConverter().convert`. -/
def convertG (ast : List Stmt) : ConvState × List (String × Nat) :=
  convert_listG (init_state, []) ast

theorem handle_branch_blockG_fst :
    ∀ (blk : List Stmt) (p : ConvState × List (String × Nat)),
      (handle_branch_blockG p blk).1 = handle_branch_block p.1 blk := by
  intro blk
  induction blk with
  | nil => intro p; rfl
  | cons s rest ih =>
      intro p
      cases s <;>
        simp only [handle_branch_blockG, handle_branch_block, List.foldl_cons] <;>
        exact ih _

theorem convert_stmtG_fst :
    ∀ (s : Stmt) (p : ConvState × List (String × Nat)),
      (convert_stmtG p s).1 = convert_stmt p.1 s := by
  intro s p
  cases s with
  | ifS c tb eb =>
      show (handle_branch_blockG (handle_branch_blockG _ tb) (eb.getD [])).1 = _
      rw [handle_branch_blockG_fst, handle_branch_blockG_fst]
      rfl
  | _ => rfl

theorem convert_listG_fst :
    ∀ (ast : List Stmt) (p : ConvState × List (String × Nat)),
      (convert_listG p ast).1 = convert_list p.1 ast := by
  intro ast
  induction ast with
  | nil => intro p; rfl
  | cons s rest ih =>
      intro p
      show (convert_listG (convert_stmtG p s) rest).1 = _
      rw [ih, convert_stmtG_fst]
      rfl

theorem convertG_fst (ast : List Stmt) :
    (convertG ast).1 = convert_list init_state ast := by
  rw [convertG, convert_listG_fst]

/-- Variables of a transformed expression: each one is either the current
`env`-image of a source variable of the expression or a source variable
passed through bare. -/
theorem transform_expr_vars (st : ConvState) :
    ∀ (e : Expr) (o : String),
      o ∈ exprVarsE (transform_expr st e) →
      (∃ w ∈ exprVarsE e, st.env w = some o) ∨ o ∈ exprVarsE e := by
  intro e
  induction e with
  | num n => intro o ho; simp [transform_expr, exprVarsE] at ho
  | var v =>
      intro o ho
      simp only [transform_expr, exprVarsE, List.mem_singleton] at ho
      subst ho
      unfold currentVar
      cases henv : st.env v with
      | none => right; simp [henv, exprVarsE]
      | some u => left; exact ⟨v, by simp [exprVarsE], by simp [henv]⟩
  | binop op l r ihl ihr =>
      intro o ho
      by_cases hop : op = "add" ∨ op = "sub" ∨ op = "mul" ∨ op = "div"
      · rw [transform_expr, if_pos hop] at ho
        rw [exprVarsE] at ho
        rcases List.mem_append.mp ho with h | h
        · rcases ihl o h with ⟨w, hw, he⟩ | h2
          · exact Or.inl ⟨w, by rw [exprVarsE]; exact List.mem_append.mpr (Or.inl hw), he⟩
          · exact Or.inr (by rw [exprVarsE]; exact List.mem_append.mpr (Or.inl h2))
        · rcases ihr o h with ⟨w, hw, he⟩ | h2
          · exact Or.inl ⟨w, by rw [exprVarsE]; exact List.mem_append.mpr (Or.inr hw), he⟩
          · exact Or.inr (by rw [exprVarsE]; exact List.mem_append.mpr (Or.inr h2))
      · rw [transform_expr, if_neg hop] at ho
        exact Or.inr ho
  | cond op l r ihl ihr =>
      intro o ho
      rw [transform_expr, exprVarsE] at ho
      rcases List.mem_append.mp ho with h | h
      · rcases ihl o h with ⟨w, hw, he⟩ | h2
        · exact Or.inl ⟨w, by rw [exprVarsE]; exact List.mem_append.mpr (Or.inl hw), he⟩
        · exact Or.inr (by rw [exprVarsE]; exact List.mem_append.mpr (Or.inl h2))
      · rcases ihr o h with ⟨w, hw, he⟩ | h2
        · exact Or.inl ⟨w, by rw [exprVarsE]; exact List.mem_append.mpr (Or.inr hw), he⟩
        · exact Or.inr (by rw [exprVarsE]; exact List.mem_append.mpr (Or.inr h2))

theorem versionsFor_append (v : String) (l1 l2 : List (String × Nat)) :
    versionsFor v (l1 ++ l2) = versionsFor v l1 ++ versionsFor v l2 := by
  simp [versionsFor, List.filterMap_append]

theorem targetsOf_append (l1 l2 : List SSAStmt) :
    targetsOf (l1 ++ l2) = targetsOf l1 ++ targetsOf l2 := by
  simp [targetsOf, List.filterMap_append]

theorem ssaOccurrences_append (l1 l2 : List SSAStmt) :
    ssaOccurrences (l1 ++ l2) = ssaOccurrences l1 ++ ssaOccurrences l2 := by
  simp [ssaOccurrences]

/-- The ghost invariant: every versioned name the `env` table currently
maps to was recorded in the issuance log. -/
def EnvOK (p : ConvState × List (String × Nat)) : Prop :=
  ∀ w u, p.1.env w = some u → u ∈ p.2.map nameOfIssue

/-- Relation between two ghost-converter states along a run: counters only
grow, the versions appended for each base are the consecutive integers
continuing from its counter, the log only grows, target names track the
log, `EnvOK` is preserved, and occurrences stay inside
log-names ∪ `V`. -/
structure GStep (V : List String) (p q : ConvState × List (String × Nat)) : Prop where
  counter_le : ∀ v, p.1.counter v ≤ q.1.counter v
  versions : ∀ v, versionsFor v q.2
      = versionsFor v p.2
          ++ List.range' (p.1.counter v + 1) (q.1.counter v - p.1.counter v)
  log_mono : ∃ t, q.2 = p.2 ++ t
  targets : targetsOf p.1.ssa = p.2.map nameOfIssue →
      targetsOf q.1.ssa = q.2.map nameOfIssue
  envok : EnvOK p → EnvOK q
  occ : EnvOK p →
      (∀ o ∈ ssaOccurrences p.1.ssa, o ∈ p.2.map nameOfIssue ∨ o ∈ V) →
      ∀ o ∈ ssaOccurrences q.1.ssa, o ∈ q.2.map nameOfIssue ∨ o ∈ V

theorem GStep_rfl (V : List String) (p : ConvState × List (String × Nat)) :
    GStep V p p := by
  refine ⟨fun v => le_refl _, fun v => by simp, ⟨[], by simp⟩, id, id, fun _ h => h⟩

theorem GStep_trans {V : List String} {p q r : ConvState × List (String × Nat)}
    (hpq : GStep V p q) (hqr : GStep V q r) : GStep V p r := by
  refine ⟨fun v => le_trans (hpq.counter_le v) (hqr.counter_le v), ?_, ?_, ?_, ?_, ?_⟩
  · intro v
    rw [hqr.versions v, hpq.versions v, List.append_assoc]
    congr 1
    have e1 : q.1.counter v + 1
        = (p.1.counter v + 1) + 1 * (q.1.counter v - p.1.counter v) := by
      have := hpq.counter_le v
      omega
    rw [e1, List.range'_append]
    congr 1
    have h1 := hpq.counter_le v
    have h2 := hqr.counter_le v
    omega
  · obtain ⟨t1, h1⟩ := hpq.log_mono
    obtain ⟨t2, h2⟩ := hqr.log_mono
    exact ⟨t1 ++ t2, by rw [h2, h1, List.append_assoc]⟩
  · exact fun h => hqr.targets (hpq.targets h)
  · exact fun h => hqr.envok (hpq.envok h)
  · exact fun he hocc => hqr.occ (hpq.envok he) (hpq.occ he hocc)

theorem handle_assignment_def (st : ConvState) (v : String) (e : Expr) :
    handle_assignment st v e
      = { counter := fun w => if w = v then st.counter v + 1 else st.counter w
          env := fun w =>
            if w = v then some (v ++ "_" ++ Nat.repr (st.counter v + 1)) else st.env w
          ssa := st.ssa
            ++ [SSAStmt.assign (v ++ "_" ++ Nat.repr (st.counter v + 1))
                  (transform_expr st e)] } := rfl

theorem mem_map_nameOfIssue_mono {lg : List (String × Nat)} {t : List (String × Nat)}
    {u : String} (h : u ∈ lg.map nameOfIssue) : u ∈ (lg ++ t).map nameOfIssue := by
  rw [List.map_append]
  exact List.mem_append.mpr (Or.inl h)

theorem GStep_assign (V : List String) (p : ConvState × List (String × Nat))
    (v : String) (e : Expr) (hV : ∀ w ∈ exprVarsE e, w ∈ V) :
    GStep V p (handle_assignmentG p v e) := by
  refine ⟨?_, ?_, ⟨[(v, p.1.counter v + 1)], rfl⟩, ?_, ?_, ?_⟩
  · intro w
    show p.1.counter w ≤ (handle_assignment p.1 v e).counter w
    rw [handle_assignment_def]
    by_cases hw : w = v
    · subst hw; simp
    · simp [hw]
  · intro w
    show versionsFor w (p.2 ++ [(v, p.1.counter v + 1)]) = _
    rw [versionsFor_append]
    show _ = versionsFor w p.2
        ++ List.range' (p.1.counter w + 1)
             ((handle_assignment p.1 v e).counter w - p.1.counter w)
    rw [handle_assignment_def]
    by_cases hw : w = v
    · subst hw
      simp [versionsFor, List.range'_one]
    · simp [versionsFor, hw, Ne.symm hw]
  · intro h
    show targetsOf (handle_assignment p.1 v e).ssa
        = (p.2 ++ [(v, p.1.counter v + 1)]).map nameOfIssue
    rw [handle_assignment_def]
    show targetsOf (p.1.ssa ++ [_]) = _
    rw [targetsOf_append, List.map_append, h]
    rfl
  · intro he w u hu
    show u ∈ (p.2 ++ [(v, p.1.counter v + 1)]).map nameOfIssue
    change (handle_assignment p.1 v e).env w = some u at hu
    rw [handle_assignment_def] at hu
    by_cases hw : w = v
    · subst hw
      simp only [if_pos rfl] at hu
      rw [List.map_append]
      refine List.mem_append.mpr (Or.inr ?_)
      simp only [List.map_cons, List.map_nil, List.mem_singleton]
      rw [← Option.some_inj.mp hu]
      rfl
    · simp only [if_neg hw] at hu
      exact mem_map_nameOfIssue_mono (he w u hu)
  · intro he hocc o ho
    show o ∈ (p.2 ++ [(v, p.1.counter v + 1)]).map nameOfIssue ∨ o ∈ V
    change o ∈ ssaOccurrences (handle_assignment p.1 v e).ssa at ho
    rw [handle_assignment_def] at ho
    change o ∈ ssaOccurrences (p.1.ssa ++ [_]) at ho
    rw [ssaOccurrences_append] at ho
    rcases List.mem_append.mp ho with h | h
    · rcases hocc o h with h2 | h2
      · exact Or.inl (mem_map_nameOfIssue_mono h2)
      · exact Or.inr h2
    · have h2 : o ∈ exprVarsE (transform_expr p.1 e) := by
        simpa [ssaOccurrences, ssaStmtOccurrences] using h
      rcases transform_expr_vars p.1 e o h2 with ⟨w, _, henv⟩ | h3
      · exact Or.inl (mem_map_nameOfIssue_mono (he w o henv))
      · exact Or.inr (hV o h3)

theorem GStep_emit_nonassign (V : List String) (p : ConvState × List (String × Nat))
    (x : SSAStmt) (hx : targetsOf [x] = [])
    (hocc : ∀ o ∈ ssaStmtOccurrences x, (∃ w, p.1.env w = some o) ∨ o ∈ V) :
    GStep V p ({ p.1 with ssa := p.1.ssa ++ [x] }, p.2) := by
  refine ⟨fun v => le_refl _, fun v => by simp, ⟨[], by simp⟩, ?_, fun h => h, ?_⟩
  · intro h
    show targetsOf (p.1.ssa ++ [x]) = _
    rw [targetsOf_append, hx, List.append_nil, h]
  · intro he hprev o ho
    change o ∈ ssaOccurrences (p.1.ssa ++ [x]) at ho
    rw [ssaOccurrences_append] at ho
    rcases List.mem_append.mp ho with h | h
    · exact hprev o h
    · have h2 : o ∈ ssaStmtOccurrences x := by
        simpa [ssaOccurrences] using h
      rcases hocc o h2 with ⟨w, henv⟩ | h3
      · exact Or.inl (he w o henv)
      · exact Or.inr h3

theorem stmtVars_assign (v : String) (e : Expr) :
    stmtVars (.assign v e) = exprVarsE e := by
  rw [stmtVars.eq_def]

theorem stmtVars_assertS (c : Expr) :
    stmtVars (.assertS c) = exprVarsE c := by
  rw [stmtVars.eq_def]

theorem stmtVars_ifS (c : Expr) (tb : List Stmt) (eb : Option (List Stmt)) :
    stmtVars (.ifS c tb eb)
      = exprVarsE c ++ blockVars tb ++
          (match eb with
           | none => []
           | some l => blockVars l) := by
  rw [stmtVars.eq_def]

theorem mem_blockVars :
    ∀ (blk : List Stmt) (s : Stmt), s ∈ blk → ∀ w ∈ stmtVars s, w ∈ blockVars blk := by
  intro blk
  induction blk with
  | nil => intro s hs; simp at hs
  | cons t rest ih =>
      intro s hs w hw
      rw [blockVars]
      rcases List.mem_cons.mp hs with h | h
      · subst h; exact List.mem_append.mpr (Or.inl hw)
      · exact List.mem_append.mpr (Or.inr (ih s h w hw))

theorem GStep_blockG (V : List String) :
    ∀ (blk : List Stmt) (p : ConvState × List (String × Nat)),
      (∀ s ∈ blk, ∀ w ∈ stmtVars s, w ∈ V) →
      GStep V p (handle_branch_blockG p blk) := by
  intro blk
  induction blk with
  | nil => intro p _; exact GStep_rfl V p
  | cons s rest ih =>
      intro p h
      have hrest : ∀ s ∈ rest, ∀ w ∈ stmtVars s, w ∈ V :=
        fun t ht => h t (List.mem_cons.mpr (Or.inr ht))
      cases s with
      | assign v e =>
          have hstep : GStep V p (handle_assignmentG p v e) :=
            GStep_assign V p v e
              (fun w hw => h _ (List.mem_cons.mpr (Or.inl rfl)) w
                (by rw [stmtVars_assign]; exact hw))
          exact GStep_trans hstep (ih (handle_assignmentG p v e) hrest)
      | ifS c tb eb => exact ih p hrest
      | assertS c => exact ih p hrest
      | forS init c u body => exact ih p hrest
      | whileS c body => exact ih p hrest

theorem GStep_stmtG (V : List String) :
    ∀ (s : Stmt) (p : ConvState × List (String × Nat)),
      (∀ w ∈ stmtVars s, w ∈ V) →
      GStep V p (convert_stmtG p s) := by
  intro s p h
  cases s with
  | assign v e =>
      exact GStep_assign V p v e (fun w hw => h w (by rw [stmtVars_assign]; exact hw))
  | ifS c tb eb =>
      have hc : ∀ w ∈ exprVarsE c, w ∈ V := by
        intro w hw
        refine h w ?_
        rw [stmtVars_ifS]
        exact List.mem_append.mpr (Or.inl (List.mem_append.mpr (Or.inl hw)))
      have htb : ∀ t ∈ tb, ∀ w ∈ stmtVars t, w ∈ V := by
        intro t ht w hw
        refine h w ?_
        rw [stmtVars_ifS]
        exact List.mem_append.mpr
          (Or.inl (List.mem_append.mpr (Or.inr (mem_blockVars tb t ht w hw))))
      have heb : ∀ t ∈ eb.getD [], ∀ w ∈ stmtVars t, w ∈ V := by
        intro t ht w hw
        refine h w ?_
        rw [stmtVars_ifS]
        refine List.mem_append.mpr (Or.inr ?_)
        cases eb with
        | none => simp at ht
        | some l => exact mem_blockVars l t (by simpa using ht) w hw
      have hstep : GStep V p
          ({ p.1 with ssa := p.1.ssa ++ [SSAStmt.branch (transform_expr p.1 c)] }, p.2) := by
        refine GStep_emit_nonassign V p _ rfl ?_
        intro o ho
        have h2 : o ∈ exprVarsE (transform_expr p.1 c) := by
          simpa [ssaStmtOccurrences] using ho
        rcases transform_expr_vars p.1 c o h2 with ⟨w, _, henv⟩ | h3
        · exact Or.inl ⟨w, henv⟩
        · exact Or.inr (hc o h3)
      refine GStep_trans hstep (GStep_trans (GStep_blockG V tb _ htb) ?_)
      exact GStep_blockG V (eb.getD []) _ heb
  | assertS c =>
      refine GStep_emit_nonassign V p _ rfl ?_
      intro o ho
      have h2 : o ∈ exprVarsE (transform_expr p.1 c) := by
        simpa [ssaStmtOccurrences] using ho
      rcases transform_expr_vars p.1 c o h2 with ⟨w, _, henv⟩ | h3
      · exact Or.inl ⟨w, henv⟩
      · exact Or.inr (h o (by rw [stmtVars_assertS]; exact h3))
  | forS init c u body => exact GStep_rfl V p
  | whileS c body => exact GStep_rfl V p

theorem GStep_listG (V : List String) :
    ∀ (ast : List Stmt) (p : ConvState × List (String × Nat)),
      (∀ s ∈ ast, ∀ w ∈ stmtVars s, w ∈ V) →
      GStep V p (convert_listG p ast) := by
  intro ast
  induction ast with
  | nil => intro p _; exact GStep_rfl V p
  | cons s rest ih =>
      intro p h
      have h1 : GStep V p (convert_stmtG p s) :=
        GStep_stmtG V s p (fun w hw => h s (List.mem_cons.mpr (Or.inl rfl)) w hw)
      have h2 : GStep V (convert_stmtG p s) (convert_listG (convert_stmtG p s) rest) :=
        ih (convert_stmtG p s) (fun t ht => h t (List.mem_cons.mpr (Or.inr ht)))
      exact GStep_trans h1 h2

/-- C5 (amended).  Within one conversion run the ghost-logged converter
(whose state component is exactly `SSAConverter`: erasure is the first
conjunct) issues, for every base name, exactly the versions
`1, 2, …, counter(base)` in processing order (strictly increasing from 1);
every assignment target is the versioned name `base ++ "_" ++ version` of
its log entry; and every variable occurrence inside the produced SSA
expressions is either such an issued versioned name or a bare source
variable name (a variable that had not been assigned at its use, which the
converter passes through unversioned). -/
theorem c5_versions_and_occurrences :
    ∀ ast : List Stmt,
      (convertG ast).1.ssa = convert ast
        ∧ (∀ v, versionsFor v (convertG ast).2
            = List.range' 1 ((convert_list init_state ast).counter v))
        ∧ targetsOf (convert ast) = (convertG ast).2.map nameOfIssue
        ∧ (∀ o ∈ ssaOccurrences (convert ast),
            o ∈ (convertG ast).2.map nameOfIssue ∨ o ∈ blockVars ast) := by
  intro ast
  have hfst : (convertG ast).1 = convert_list init_state ast := convertG_fst ast
  have gs : GStep (blockVars ast) (init_state, []) (convertG ast) :=
    GStep_listG (blockVars ast) ast (init_state, [])
      (fun s hs w hw => mem_blockVars ast s hs w hw)
  have hssa : (convertG ast).1.ssa = convert ast := by rw [hfst]; rfl
  refine ⟨hssa, ?_, ?_, ?_⟩
  · intro v
    have hv := gs.versions v
    rw [hfst] at hv
    simpa [versionsFor, init_state] using hv
  · have h0 : targetsOf (init_state, ([] : List (String × Nat))).1.ssa
        = ([] : List (String × Nat)).map nameOfIssue := rfl
    have ht := gs.targets h0
    rw [hssa] at ht
    exact ht
  · have he : EnvOK (init_state, []) := by
      intro w u hu
      simp [init_state] at hu
    have hocc0 : ∀ o ∈ ssaOccurrences (init_state, ([] : List (String × Nat))).1.ssa,
        o ∈ ([] : List (String × Nat)).map nameOfIssue ∨ o ∈ blockVars ast := by
      intro o ho
      simp [init_state, ssaOccurrences] at ho
    have ho := gs.occ he hocc0
    rw [hssa] at ho
    exact ho

/-- A name of the form `base_n` for a positive integer `n` (the version
shape claimed for every SSA variable occurrence). -/
def IsVersionedName (o : String) : Prop :=
  ∃ b t, o = b ++ "_" ++ t ∧ ∃ n, t.toNat? = some n ∧ 1 ≤ n

/-- C5 counterexample.  Converting `x := y` (where `y` is never assigned)
produces the SSA `x_1 := y` whose right-hand occurrence `y` is a bare name,
not of the form `base_n`. -/
theorem c5_counterexample :
    ssaOccurrences (convert [Stmt.assign "x" (.var "y")]) = ["y"]
      ∧ ¬ IsVersionedName "y" := by
  refine ⟨rfl, ?_⟩
  rintro ⟨b, t, heq, n, ht, _⟩
  have htne : t ≠ "" := by
    intro h0
    rw [h0, show String.toNat? "" = none from rfl] at ht
    exact Option.noConfusion ht
  have htl : 1 ≤ t.length := by
    by_contra hcon
    push_neg at hcon
    refine htne ?_
    have h0 : t.length = 0 := by omega
    cases t with
    | mk d =>
        simp [String.length] at h0
        simp [h0]
  have hlen := congrArg String.length heq
  rw [String.length_append, String.length_append] at hlen
  have h1 : ("y" : String).length = 1 := rfl
  have h2 : ("_" : String).length = 1 := rfl
  omega

/-! ## Self-equivalence of closed programs (claim C2) -/

/-- Specification-side closedness of an SSA list relative to the
already-assigned targets `D`: every variable occurring in a right-hand side
or condition was assigned earlier (no free variables). -/
def closedFrom (D : List String) : List SSAStmt → Bool
  | [] => true
  | .assign v e :: rest =>
      (exprVarsE e).all (fun w => D.contains w) && closedFrom (D ++ [v]) rest
  | .branch c :: rest =>
      (exprVarsE c).all (fun w => D.contains w) && closedFrom D rest
  | .assertS c :: rest =>
      (exprVarsE c).all (fun w => D.contains w) && closedFrom D rest

/-- The SSA list contains at least one assignment. -/
def hasAssignSSA (ssa : List SSAStmt) : Bool :=
  ssa.any (fun s =>
    match s with
    | .assign _ _ => true
    | _ => false)

theorem targetsOf_cons_assign (v : String) (e : Expr) (rest : List SSAStmt) :
    targetsOf (SSAStmt.assign v e :: rest) = v :: targetsOf rest := rfl

theorem targetsOf_cons_branch (c : Expr) (rest : List SSAStmt) :
    targetsOf (SSAStmt.branch c :: rest) = targetsOf rest := rfl

theorem targetsOf_cons_assert (c : Expr) (rest : List SSAStmt) :
    targetsOf (SSAStmt.assertS c :: rest) = targetsOf rest := rfl

theorem holds_eq_intVar (σ : String → Int) (x : String) (b : Z3Val)
    (h : holdsZ σ (Z3Val.eqV (Z3Val.intVar x) b)) :
    ∃ y, zEval σ b = some (.i y) ∧ σ x = y := by
  unfold holdsZ at h
  cases hb : zEval σ b with
  | none => simp [zEval, hb] at h
  | some pv =>
      cases pv with
      | i y =>
          refine ⟨y, rfl, ?_⟩
          simp [zEval, hb] at h
          exact h
      | b bl => simp [zEval, hb] at h

/-- Evaluating a prefixed encoding depends only on the assignment's values
at the prefixed variables of the expression: two prefixes whose variables
agree give the same value. -/
theorem zEval_expr_prefix (σ : String → Int) (p q : String) :
    ∀ e : Expr, (∀ w ∈ exprVarsE e, σ (p ++ w) = σ (q ++ w)) →
      zEval σ (expr_to_z3 p e) = zEval σ (expr_to_z3 q e) := by
  intro e
  induction e with
  | num n => intro _; rfl
  | var v =>
      intro h
      simp only [expr_to_z3, zEval]
      rw [h v (by simp [exprVarsE])]
  | binop op l r ihl ihr =>
      intro h
      have hl : ∀ w ∈ exprVarsE l, σ (p ++ w) = σ (q ++ w) := by
        intro w hw
        exact h w (by rw [exprVarsE]; exact List.mem_append.mpr (Or.inl hw))
      have hr : ∀ w ∈ exprVarsE r, σ (p ++ w) = σ (q ++ w) := by
        intro w hw
        exact h w (by rw [exprVarsE]; exact List.mem_append.mpr (Or.inr hw))
      by_cases hop : op = "add" ∨ op = "sub" ∨ op = "mul" ∨ op = "div"
      · rw [expr_to_z3, if_pos hop, expr_to_z3, if_pos hop]
        simp only [zEval]
        rw [ihl hl, ihr hr]
      · rw [expr_to_z3, if_neg hop, expr_to_z3, if_neg hop]
  | cond op l r ihl ihr =>
      intro h
      have hl : ∀ w ∈ exprVarsE l, σ (p ++ w) = σ (q ++ w) := by
        intro w hw
        exact h w (by rw [exprVarsE]; exact List.mem_append.mpr (Or.inl hw))
      have hr : ∀ w ∈ exprVarsE r, σ (p ++ w) = σ (q ++ w) := by
        intro w hw
        exact h w (by rw [exprVarsE]; exact List.mem_append.mpr (Or.inr hw))
      by_cases hop : op = "<" ∨ op = ">" ∨ op = "<=" ∨ op = ">=" ∨ op = "==" ∨ op = "!="
      · rw [expr_to_z3, if_pos hop, expr_to_z3, if_pos hop]
        simp only [zEval]
        rw [ihl hl, ihr hr]
      · rw [expr_to_z3, if_neg hop, expr_to_z3, if_neg hop]

/-- Any one assignment satisfying the constraints of two prefixed encodings
of the same closed SSA list gives the corresponding prefixed versions of
every assigned target equal values. -/
theorem constraints_agree :
    ∀ (ssa : List SSAStmt) (D : List String) (σ : String → Int) (p q : String),
      closedFrom D ssa = true →
      (∀ w ∈ D, σ (p ++ w) = σ (q ++ w)) →
      (∀ f ∈ ssa.map (encode1 p), holdsZ σ f) →
      (∀ f ∈ ssa.map (encode1 q), holdsZ σ f) →
      ∀ w, w ∈ D ∨ w ∈ targetsOf ssa → σ (p ++ w) = σ (q ++ w) := by
  intro ssa
  induction ssa with
  | nil =>
      intro D σ p q _ hD _ _ w hw
      rcases hw with h | h
      · exact hD w h
      · simp [targetsOf] at h
  | cons s rest ih =>
      intro D σ p q hclosed hD hp hq w hw
      have hphead := hp (encode1 p s) (by simp)
      have hqhead := hq (encode1 q s) (by simp)
      have hptail : ∀ f ∈ rest.map (encode1 p), holdsZ σ f :=
        fun f hf => hp f (by simp only [List.map_cons, List.mem_cons]; exact Or.inr hf)
      have hqtail : ∀ f ∈ rest.map (encode1 q), holdsZ σ f :=
        fun f hf => hq f (by simp only [List.map_cons, List.mem_cons]; exact Or.inr hf)
      cases s with
      | assign v e =>
          rw [closedFrom, Bool.and_eq_true] at hclosed
          have hvars : ∀ u ∈ exprVarsE e, u ∈ D := by
            intro u hu
            have := List.all_eq_true.mp hclosed.1 u hu
            simpa using this
          obtain ⟨y, hy, hxy⟩ := holds_eq_intVar σ (p ++ v) (expr_to_z3 p e)
            (by simpa [encode1] using hphead)
          obtain ⟨z, hz, hxz⟩ := holds_eq_intVar σ (q ++ v) (expr_to_z3 q e)
            (by simpa [encode1] using hqhead)
          have heq : zEval σ (expr_to_z3 p e) = zEval σ (expr_to_z3 q e) :=
            zEval_expr_prefix σ p q e (fun u hu => hD u (hvars u hu))
          have hyz : y = z := by
            rw [hy, hz] at heq
            simpa using heq
          have hv : σ (p ++ v) = σ (q ++ v) := by rw [hxy, hxz, hyz]
          have hD2 : ∀ u ∈ D ++ [v], σ (p ++ u) = σ (q ++ u) := by
            intro u hu
            rcases List.mem_append.mp hu with h | h
            · exact hD u h
            · rw [List.mem_singleton.mp h]; exact hv
          refine ih (D ++ [v]) σ p q hclosed.2 hD2 hptail hqtail w ?_
          rcases hw with h | h
          · exact Or.inl (List.mem_append.mpr (Or.inl h))
          · rw [targetsOf_cons_assign] at h
            rcases List.mem_cons.mp h with h2 | h2
            · exact Or.inl (List.mem_append.mpr (Or.inr (by simp [h2])))
            · exact Or.inr h2
      | branch c =>
          rw [closedFrom, Bool.and_eq_true] at hclosed
          refine ih D σ p q hclosed.2 hD hptail hqtail w ?_
          rcases hw with h | h
          · exact Or.inl h
          · exact Or.inr (by rwa [targetsOf_cons_branch] at h)
      | assertS c =>
          rw [closedFrom, Bool.and_eq_true] at hclosed
          refine ih D σ p q hclosed.2 hD hptail hqtail w ?_
          rcases hw with h | h
          · exact Or.inl h
          · exact Or.inr (by rwa [targetsOf_cons_assert] at h)

/-- In a closed SSA list, the variables of every recorded assertion and of
its guarding branch condition are assigned targets (or in the ambient `D`). -/
theorem get_assertions_vars :
    ∀ (ssa : List SSAStmt) (D : List String) (cur : Option Expr),
      closedFrom D ssa = true →
      (∀ c, cur = some c → ∀ w ∈ exprVarsE c, w ∈ D) →
      ∀ pr ∈ get_assertions ssa cur,
        (∀ w ∈ exprVarsE pr.1, w ∈ D ++ targetsOf ssa)
          ∧ ∀ c, pr.2 = some c → ∀ w ∈ exprVarsE c, w ∈ D ++ targetsOf ssa := by
  intro ssa
  induction ssa with
  | nil =>
      intro D cur _ _ pr hpr
      simp [get_assertions] at hpr
  | cons s rest ih =>
      intro D cur hclosed hcur pr hpr
      cases s with
      | assign v e =>
          rw [closedFrom, Bool.and_eq_true] at hclosed
          rw [get_assertions] at hpr
          have hcur2 : ∀ c, cur = some c → ∀ w ∈ exprVarsE c, w ∈ D ++ [v] :=
            fun c hc w hw => List.mem_append.mpr (Or.inl (hcur c hc w hw))
          have := ih (D ++ [v]) cur hclosed.2 hcur2 pr hpr
          rw [targetsOf_cons_assign]
          constructor
          · intro w hw
            have h2 := this.1 w hw
            rw [List.append_assoc] at h2
            simpa using h2
          · intro c hc w hw
            have h2 := this.2 c hc w hw
            rw [List.append_assoc] at h2
            simpa using h2
      | branch c =>
          rw [closedFrom, Bool.and_eq_true] at hclosed
          rw [get_assertions] at hpr
          have hcur2 : ∀ c2, (some c : Option Expr) = some c2 → ∀ w ∈ exprVarsE c2, w ∈ D := by
            intro c2 hc2 w hw
            rw [← Option.some_inj.mp hc2] at hw
            have := List.all_eq_true.mp hclosed.1 w hw
            simpa using this
          have := ih D (some c) hclosed.2 hcur2 pr hpr
          rw [targetsOf_cons_branch]
          exact this
      | assertS a =>
          rw [closedFrom, Bool.and_eq_true] at hclosed
          rw [get_assertions] at hpr
          rw [targetsOf_cons_assert]
          rcases List.mem_cons.mp hpr with h | h
          · subst h
            constructor
            · intro w hw
              have := List.all_eq_true.mp hclosed.1 w hw
              exact List.mem_append.mpr (Or.inl (by simpa using this))
            · intro c hc w hw
              exact List.mem_append.mpr (Or.inl (hcur c hc w hw))
          · exact ih D cur hclosed.2 hcur pr h

theorem mem_upsert (m : List (String × String)) (k v : String) (b u : String)
    (h : (b, u) ∈ upsert m k v) : (b, u) ∈ m ∨ u = v := by
  unfold upsert at h
  by_cases hany : m.any (fun p => p.1 = k)
  · rw [if_pos hany] at h
    rcases List.mem_map.mp h with ⟨pr, hpr, heq⟩
    by_cases hk : pr.1 = k
    · rw [if_pos hk] at heq
      exact Or.inr (congrArg Prod.snd heq).symm
    · rw [if_neg hk] at heq
      exact Or.inl (heq ▸ hpr)
  · rw [if_neg hany] at h
    rcases List.mem_append.mp h with h2 | h2
    · exact Or.inl h2
    · exact Or.inr (congrArg Prod.snd (List.mem_singleton.mp h2))

/-- Every value recorded in `get_final_versions` is an assignment target. -/
theorem get_final_versions_values :
    ∀ (ssa : List SSAStmt) (acc : List (String × String)) (b u : String),
      (b, u) ∈ ssa.foldl
        (fun m s =>
          match s with
          | SSAStmt.assign t _ => upsert m (baseOf t) t
          | _ => m) acc →
      (b, u) ∈ acc ∨ u ∈ targetsOf ssa := by
  intro ssa
  induction ssa with
  | nil => intro acc b u h; exact Or.inl h
  | cons s rest ih =>
      intro acc b u h
      cases s with
      | assign t e =>
          rw [List.foldl_cons] at h
          rcases ih (upsert acc (baseOf t) t) b u h with h2 | h2
          · rcases mem_upsert acc (baseOf t) t b u h2 with h3 | h3
            · exact Or.inl h3
            · refine Or.inr ?_
              rw [targetsOf_cons_assign, h3]
              exact List.mem_cons.mpr (Or.inl rfl)
          · exact Or.inr (by rw [targetsOf_cons_assign]; exact List.mem_cons.mpr (Or.inr h2))
      | branch c =>
          rw [List.foldl_cons] at h
          rcases ih acc b u h with h2 | h2
          · exact Or.inl h2
          · exact Or.inr (by rwa [targetsOf_cons_branch])
      | assertS c =>
          rw [List.foldl_cons] at h
          rcases ih acc b u h with h2 | h2
          · exact Or.inl h2
          · exact Or.inr (by rwa [targetsOf_cons_assert])

theorem upsert_ne_nil (m : List (String × String)) (k v : String) :
    upsert m k v ≠ [] := by
  unfold upsert
  by_cases hany : m.any (fun p => p.1 = k)
  · rw [if_pos hany]
    intro h
    rw [List.map_eq_nil_iff] at h
    subst h
    simp at hany
  · rw [if_neg hany]
    simp

/-- With at least one assignment, the final-version table is nonempty. -/
theorem get_final_versions_ne_nil :
    ∀ (ssa : List SSAStmt) (acc : List (String × String)),
      (hasAssignSSA ssa = true ∨ acc ≠ []) →
      ssa.foldl
        (fun m s =>
          match s with
          | SSAStmt.assign t _ => upsert m (baseOf t) t
          | _ => m) acc ≠ [] := by
  intro ssa
  induction ssa with
  | nil =>
      intro acc h
      rcases h with h | h
      · simp [hasAssignSSA] at h
      · exact h
  | cons s rest ih =>
      intro acc h
      cases s with
      | assign t e =>
          rw [List.foldl_cons]
          exact ih (upsert acc (baseOf t) t) (Or.inr (upsert_ne_nil acc (baseOf t) t))
      | branch c =>
          rw [List.foldl_cons]
          refine ih acc ?_
          rcases h with h | h
          · exact Or.inl (by simpa [hasAssignSSA] using h)
          · exact Or.inr h
      | assertS c =>
          rw [List.foldl_cons]
          refine ih acc ?_
          rcases h with h | h
          · exact Or.inl (by simpa [hasAssignSSA] using h)
          · exact Or.inr h

theorem lookupD_mem (m : List (String × String)) (b : String)
    (h : b ∈ m.map Prod.fst) : (b, lookupD m b) ∈ m := by
  have hsome : (m.find? (fun p => p.1 = b)).isSome := by
    rw [List.find?_isSome]
    obtain ⟨pr, hpr, hb⟩ := List.mem_map.mp h
    exact ⟨pr, hpr, by simp [hb]⟩
  obtain ⟨pr, hpr⟩ := Option.isSome_iff_exists.mp hsome
  have hmem := List.mem_of_find?_eq_some hpr
  have hfst : pr.1 = b := by simpa using List.find?_some hpr
  have : lookupD m b = pr.2 := by simp [lookupD, hpr]
  rw [this, ← hfst]
  exact hmem

theorem mem_zip_self {α : Type} (l : List α) :
    ∀ x ∈ l.zip l, x.1 = x.2 := by
  induction l with
  | nil => intro x hx; simp at hx
  | cons a t ih =>
      intro x hx
      rw [List.zip_cons_cons, List.mem_cons] at hx
      rcases hx with h | h
      · rw [h]
      · exact ih x h

/-- When guards and assertions evaluate identically on both sides, the
assertion-divergence formula `Or(And(c1, a1, Not a2), And(c2, Not a1, a2))`
cannot hold. -/
theorem no_assert_divergence (σ : String → Int) (zc1 zc2 za1 za2 : Z3Val)
    (hc : zEval σ zc1 = zEval σ zc2) (ha : zEval σ za1 = zEval σ za2) :
    ¬ holdsZ σ (.or2 (.and3 zc1 za1 (.not1 za2)) (.and3 zc2 (.not1 za1) za2)) := by
  intro h
  unfold holdsZ at h
  simp only [zEval] at h
  rw [← hc, ← ha] at h
  cases hC : zEval σ zc1 with
  | none =>
      cases hA : zEval σ za1 with
      | none => rw [hC, hA] at h; simp at h
      | some pva =>
          cases pva with
          | i n => rw [hC, hA] at h; simp at h
          | b t => rw [hC, hA] at h; cases t <;> simp at h
  | some pvc =>
      cases pvc with
      | i n =>
          cases hA : zEval σ za1 with
          | none => rw [hC, hA] at h; simp at h
          | some pva =>
              cases pva with
              | i m => rw [hC, hA] at h; simp at h
              | b t => rw [hC, hA] at h; cases t <;> simp at h
      | b c =>
          cases hA : zEval σ za1 with
          | none => rw [hC, hA] at h; simp at h
          | some pva =>
              cases pva with
              | i m => rw [hC, hA] at h; simp at h
              | b t => rw [hC, hA] at h; cases t <;> cases c <;> simp at h

/-- Self-equivalence for closed SSA programs: with a sound solver oracle,
checking a closed SSA list (at least one assignment, no free variables)
against itself returns the equivalent verdict. -/
theorem self_equivalence (ssa : List SSAStmt) (sat? : List Z3Val → Bool)
    (hsound : SoundOracle sat?)
    (hclosed : closedFrom [] ssa = true)
    (hassign : hasAssignSSA ssa = true) :
    check_program_equivalence sat? ssa ssa = .equivalent := by
  have agree : ∀ σ : String → Int,
      (∀ f ∈ (to_smt "p1_" ssa).constraints ++ (to_smt "p2_" ssa).constraints, holdsZ σ f) →
      ∀ w ∈ targetsOf ssa, σ ("p1_" ++ w) = σ ("p2_" ++ w) := by
    intro σ hσ w hw
    have hp : ∀ f ∈ ssa.map (encode1 "p1_"), holdsZ σ f := by
      intro f hf
      refine hσ f ?_
      rw [to_smt_constraints, to_smt_constraints]
      exact List.mem_append.mpr (Or.inl hf)
    have hq : ∀ f ∈ ssa.map (encode1 "p2_"), holdsZ σ f := by
      intro f hf
      refine hσ f ?_
      rw [to_smt_constraints, to_smt_constraints]
      exact List.mem_append.mpr (Or.inr hf)
    exact constraints_agree ssa [] σ "p1_" "p2_" hclosed (by simp) hp hq w (Or.inr hw)
  have hkeys : ((get_final_versions ssa).map Prod.fst) ≠ [] := by
    intro h
    exact get_final_versions_ne_nil ssa [] (Or.inl hassign) (List.map_eq_nil_iff.mp h)
  have hfilter : ((get_final_versions ssa).map Prod.fst).filter
      (fun k => ((get_final_versions ssa).map Prod.fst).contains k)
      = (get_final_versions ssa).map Prod.fst :=
    List.filter_eq_self.mpr (fun a ha => by simpa using ha)
  have hne : ¬ (((get_final_versions ssa).map Prod.fst).isEmpty = true) := by
    intro h
    exact hkeys (by simpa [List.isEmpty_iff] using h)
  have hvq : ∀ b ∈ (get_final_versions ssa).map Prod.fst,
      ¬ (sat? (value_query
          ((to_smt "p1_" ssa).constraints ++ (to_smt "p2_" ssa).constraints)
          (get_final_versions ssa) (get_final_versions ssa) b) = true) := by
    intro b hb hq
    refine absurd (hsound _ hq) ?_
    rintro ⟨σ, hσ⟩
    have hbase : ∀ f ∈ (to_smt "p1_" ssa).constraints ++ (to_smt "p2_" ssa).constraints,
        holdsZ σ f := by
      intro f hf
      exact hσ f (List.mem_append.mpr (Or.inl hf))
    have hv : (b, lookupD (get_final_versions ssa) b) ∈ get_final_versions ssa :=
      lookupD_mem (get_final_versions ssa) b hb
    have hvt : lookupD (get_final_versions ssa) b ∈ targetsOf ssa := by
      rcases get_final_versions_values ssa [] b (lookupD (get_final_versions ssa) b)
        (by exact hv) with h2 | h2
      · simp at h2
      · exact h2
    have hagree := agree σ hbase _ hvt
    have hne2 := hσ (Z3Val.neV
        (Z3Val.intVar ("p1_" ++ lookupD (get_final_versions ssa) b))
        (Z3Val.intVar ("p2_" ++ lookupD (get_final_versions ssa) b)))
      (List.mem_append.mpr (Or.inr (List.mem_singleton.mpr rfl)))
    unfold holdsZ at hne2
    simp [zEval, hagree] at hne2
  have hfind : ((get_final_versions ssa).map Prod.fst).find?
      (fun b => sat? (value_query
        ((to_smt "p1_" ssa).constraints ++ (to_smt "p2_" ssa).constraints)
        (get_final_versions ssa) (get_final_versions ssa) b)) = none :=
    List.find?_eq_none.mpr hvq
  have hany : (((get_assertions ssa none).zip (get_assertions ssa none)).any
      (fun pr => sat? (assert_query
        ((to_smt "p1_" ssa).constraints ++ (to_smt "p2_" ssa).constraints) pr)))
      = false := by
    rw [List.any_eq_false]
    rintro ⟨⟨a, copt⟩, ⟨a2, copt2⟩⟩ hpr hq
    have hp12 := mem_zip_self (get_assertions ssa none) _ hpr
    simp only [Prod.mk.injEq] at hp12
    obtain ⟨rfl, rfl⟩ := hp12
    have hmem : (a, copt) ∈ get_assertions ssa none :=
      (List.of_mem_zip hpr).1
    refine absurd (hsound _ hq) ?_
    rintro ⟨σ, hσ⟩
    have hbase : ∀ f ∈ (to_smt "p1_" ssa).constraints ++ (to_smt "p2_" ssa).constraints,
        holdsZ σ f := by
      intro f hf
      exact hσ f (List.mem_append.mpr (Or.inl hf))
    have hvars := get_assertions_vars ssa [] none hclosed (by simp) (a, copt) hmem
    have ha : zEval σ (expr_to_z3 "p1_" a) = zEval σ (expr_to_z3 "p2_" a) := by
      refine zEval_expr_prefix σ "p1_" "p2_" a ?_
      intro w hw
      exact agree σ hbase w (by simpa using hvars.1 w hw)
    have hcnd : zEval σ ((copt.map (expr_to_z3 "p1_")).getD (.boolV true))
        = zEval σ ((copt.map (expr_to_z3 "p2_")).getD (.boolV true)) := by
      cases copt with
      | none => rfl
      | some c =>
          show zEval σ (expr_to_z3 "p1_" c) = zEval σ (expr_to_z3 "p2_" c)
          refine zEval_expr_prefix σ "p1_" "p2_" c ?_
          intro w hw
          exact agree σ hbase w (by simpa using hvars.2 c rfl w hw)
    have hor := hσ (Z3Val.or2
        (.and3 ((copt.map (expr_to_z3 "p1_")).getD (.boolV true))
          (expr_to_z3 "p1_" a) (.not1 (expr_to_z3 "p2_" a)))
        (.and3 ((copt.map (expr_to_z3 "p2_")).getD (.boolV true))
          (.not1 (expr_to_z3 "p1_" a)) (expr_to_z3 "p2_" a)))
      (List.mem_append.mpr (Or.inr (List.mem_singleton.mpr rfl)))
    exact no_assert_divergence σ _ _ _ _ hcnd ha hor
  simp only [check_program_equivalence]
  rw [hfilter, if_neg hne, hfind]
  simp [hany]

/-- C2 (amended).  Parsing is deterministic, so the two independent runs
convert the same AST; for every program whose SSA is closed (each variable
occurrence refers to a previously assigned target — no free variables) and
contains at least one assignment, checking the program against itself under
any sound solver oracle returns the equivalent verdict. -/
theorem c2_self_equivalence_closed :
    ∀ (ast : List Stmt) (sat? : List Z3Val → Bool),
      SoundOracle sat? →
      closedFrom [] (convert ast) = true →
      hasAssignSSA (convert ast) = true →
      check_program_equivalence sat? (convert ast) (convert ast) = .equivalent :=
  fun ast sat? hs hc ha => self_equivalence (convert ast) sat? hs hc ha

/-- A closed example program for the C2 witness:
`x := 1; y := x + 2; assert(y > 0);`. -/
def astC2W : List Stmt :=
  [Stmt.assign "x" (.num 1),
   Stmt.assign "y" (.binop "add" (.var "x") (.num 2)),
   Stmt.assertS (.cond ">" (.var "y") (.num 0))]

/-- C2 witness: the closed example program is equivalent to itself. -/
theorem c2_witness :
    SoundOracle (fun _ => false)
      ∧ closedFrom [] (convert astC2W) = true
      ∧ hasAssignSSA (convert astC2W) = true
      ∧ check_program_equivalence (fun _ => false) (convert astC2W) (convert astC2W)
          = .equivalent := by
  have hsound : SoundOracle (fun _ => false) := by
    intro cs h
    simp at h
  exact ⟨hsound, by decide, by decide,
    c2_self_equivalence_closed astC2W (fun _ => false) hsound (by decide) (by decide)⟩

/-- The SSA of `x := y;` — `y` is never assigned, so the two encodings do
not constrain `p1_y` and `p2_y` to agree. -/
def ssaC2 : List SSAStmt := convert [Stmt.assign "x" (.var "y")]

/-- The value-divergence query the checker poses for the shared base `x` of
`ssaC2` against itself. -/
def qC2 : List Z3Val :=
  value_query ((to_smt "p1_" ssaC2).constraints ++ (to_smt "p2_" ssaC2).constraints)
    (get_final_versions ssaC2) (get_final_versions ssaC2) "x"

/-- A solver oracle that answers `sat` exactly on the (genuinely
satisfiable) query `qC2` — the answer the real solver gives there. -/
def oracleC2 : List Z3Val → Bool := fun cs => decide (cs = qC2)

/-- C2 counterexample.  The program `x := y;` parses, yet checking it
against itself reports value divergence on `x`: the free variable `y` is
encoded as two unconstrained symbols `p1_y`/`p2_y`, so `p1_x_1 ≠ p2_x_1` is
satisfiable.  The oracle used answers `sat` only on that query, and its
soundness is proved by an explicit model, so the run matches what a sound
and complete solver returns. -/
theorem c2_counterexample :
    SoundOracle oracleC2
      ∧ check_program_equivalence oracleC2 ssaC2 ssaC2 = .valueDiv "x" := by
  constructor
  · intro cs h
    have hcs : cs = qC2 := of_decide_eq_true h
    subst hcs
    refine ⟨fun s => if s = "p2_x_1" ∨ s = "p2_y" then 1 else 0, ?_⟩
    intro f hf
    have hq : qC2 = [Z3Val.eqV (.intVar "p1_x_1") (.intVar "p1_y"),
        Z3Val.eqV (.intVar "p2_x_1") (.intVar "p2_y"),
        Z3Val.neV (.intVar "p1_x_1") (.intVar "p2_x_1")] := rfl
    rw [hq] at hf
    have : f = Z3Val.eqV (.intVar "p1_x_1") (.intVar "p1_y")
        ∨ f = Z3Val.eqV (.intVar "p2_x_1") (.intVar "p2_y")
        ∨ f = Z3Val.neV (.intVar "p1_x_1") (.intVar "p2_x_1") := by
      simpa using hf
    rcases this with rfl | rfl | rfl <;> exact rfl
  · rfl
